import Mathlib

/-!
Verification of the client-side optimistic transaction engine of a realtime
synchronized-tree database client.

The public entry point `runTransaction` (packages/database/src/exp/Transaction.ts)
is embedded directly from the source.  The queue / runner state machine it
starts (core/Repo) is not part of the excerpt, so it is modelled from the
design document (sections 4.1 - 4.5): an executable transition function over an
explicit engine state, driven by a list of external events.
-/

namespace FirebaseDB

/-- A path in the synchronized tree: an ordered list of string segments. -/
abbrev Path := List String

/-- A tree node value.  None of the checked properties depends on the internal
tree structure of a node, so a node is modelled as an integer payload. -/
abbrev Node := Int

/-- A nullable node (`Node | null` in the source). -/
abbrev NodeVal := Option Node

/-- A JavaScript `Error` object; only its message is relevant here. -/
structure Error where
  message : String
deriving DecidableEq, Repr

/-- A thrown JavaScript value: either a plain string or an `Error` object.
The reserved-key check in `runTransaction` throws a plain string
(Transaction.ts lines 104-108), while path validation throws an `Error`. -/
inductive Thrown where
  | strVal (s : String)
  | errVal (e : Error)
deriving DecidableEq, Repr

/-- Does a thrown value carry an `Error` object (as opposed to a string)? -/
def Thrown.isErrorObject : Thrown → Bool
  | .strVal _ => false
  | .errVal _ => true

/-- `DataSnapshot` as built by `promiseComplete` (Transaction.ts lines
122-126): the node together with the ref path it was read at. -/
structure DataSnapshot where
  node : NodeVal
  path : Path
deriving DecidableEq, Repr

/-- `TransactionResult` (Transaction.ts lines 42-55). -/
structure TransactionResult where
  committed : Bool
  snapshot : DataSnapshot
deriving DecidableEq, Repr

/-- `TransactionOptions` (Transaction.ts lines 29-37); `applyLocally` may be
absent (`undefined`), modelled as `none`. -/
structure TransactionOptions where
  applyLocally : Option Bool
deriving DecidableEq, Repr

/-- The successful synchronous outcome of `runTransaction`: a deferred result
cell has been created and `repoStartTransaction` has been invoked with this
path and effective `applyLocally` flag (Transaction.ts lines 110-141). -/
structure StartedTransaction where
  path : Path
  applyLocally : Bool
deriving DecidableEq, Repr

/-- `ref.key`: the last segment of the ref path, or `none` at the root. -/
def refKey (p : Path) : Option String := p.getLast?

/-- The plain string thrown by the reserved-key check
(Transaction.ts lines 105-107). -/
def readOnlyMessage (k : String) : String :=
  "Reference.transaction failed: " ++ k ++ " is a read-only object."

/-- Modelled from the spec: `validateWritablePath` (core/util/validation) is
not part of the excerpt.  The spec requires only that "the target path must be
writable" and that a violation fails synchronously, so writability is an
abstract predicate supplied as a parameter and a violation throws an `Error`. -/
def validateWritablePath (writable : Path → Bool) (p : Path) : Option Thrown :=
  if writable p then none
  else some (.errVal ⟨"Reference.transaction failed: path is not writable."⟩)

/-- The synchronous part of `runTransaction` (Transaction.ts lines 94-144):
validate the path, check the reserved meta-keys `.length` / `.keys` against
`ref.key` only, compute the effective `applyLocally` flag
(`options?.applyLocally ?? true`, line 110), then create the deferred and
start the repo transaction. -/
def runTransaction (writable : Path → Bool) (path : Path)
    (options : Option TransactionOptions) : Except Thrown StartedTransaction :=
  match validateWritablePath writable path with
  | some t => .error t
  | none =>
    if refKey path == some ".length" || refKey path == some ".keys" then
      .error (.strVal (readOnlyMessage ((refKey path).getD "")))
    else
      .ok { path := path
            applyLocally := (options.bind TransactionOptions.applyLocally).getD true }

/-- Did the synchronous part succeed (deferred created, transaction queued)? -/
def startedOk : Except Thrown StartedTransaction → Bool
  | .ok _ => true
  | .error _ => false

/-- Is the synchronous outcome a thrown `Error` object? -/
def threwErrorObject : Except Thrown StartedTransaction → Bool
  | .error t => t.isErrorObject
  | .ok _ => false

/-- Is the synchronous outcome a thrown plain string? -/
def threwString : Except Thrown StartedTransaction → Bool
  | .error (.strVal _) => true
  | _ => false

/-- How the deferred promise is settled. -/
inductive Settlement where
  | rejected (e : Error)
  | resolved (r : TransactionResult)
deriving DecidableEq, Repr

/-- Was the settlement a rejection? -/
def Settlement.isRejected : Settlement → Bool
  | .rejected _ => true
  | .resolved _ => false

/-- The completion callback `promiseComplete` (Transaction.ts lines 113-129):
a non-null error rejects the deferred with exactly that error; otherwise a
`DataSnapshot` is built from the node at the ref path and the deferred is
resolved with a `TransactionResult` carrying the committed flag. -/
def promiseComplete (path : Path) (error : Option Error) (committed : Bool)
    (node : NodeVal) : Settlement :=
  match error with
  | some e => .rejected e
  | none => .resolved ⟨committed, ⟨node, path⟩⟩

/-- Modelled from the spec: the `Deferred` of `@firebase/util` (not part of
the excerpt) is "a single-assignment result cell (resolved at most once)";
settling an already-settled cell is a no-op. -/
structure Deferred where
  cell : Option Settlement
deriving DecidableEq, Repr

/-- Settle the cell; a second settlement attempt leaves it unchanged. -/
def Deferred.settle (d : Deferred) (s : Settlement) : Deferred :=
  match d.cell with
  | some _ => d
  | none => ⟨some s⟩

/-- Run a sequence of completion-callback invocations (each given by its
`(error, committed, node)` arguments) against a fresh deferred cell. -/
def settleCalls (path : Path) (calls : List (Option Error × Bool × NodeVal)) :
    Deferred :=
  calls.foldl (fun d c => d.settle (promiseComplete path c.1 c.2.1 c.2.2)) ⟨none⟩

end FirebaseDB

namespace FirebaseDB

/-- The settlement produced by one completion-callback invocation. -/
def callSettlement (path : Path) (c : Option Error × Bool × NodeVal) :
    Settlement :=
  promiseComplete path c.1 c.2.1 c.2.2

end FirebaseDB

namespace FirebaseDB

/-- Transaction entry status (spec section 3).  `SENT_NEEDS_ABORT` is listed
in the data model but is never assigned by the section 4.3 transitions. -/
inductive TStatus where
  | RUN
  | SENT
  | COMPLETED
  | SENT_NEEDS_ABORT
deriving DecidableEq, Repr

/-- Why an entry completed without committing. -/
inductive AbortReason where
  | returnedUndefined
  | writeCanceled
deriving DecidableEq, Repr

/-- Terminal outcome of a transaction entry (spec sections 4.3 and 4.5). -/
inductive Outcome where
  | committedWith (snapshot : NodeVal)
  | aborted (reason : AbortReason) (snapshot : NodeVal)
  | failed (err : String)
deriving DecidableEq, Repr

/-- The committed flag delivered with the outcome. -/
def Outcome.committedFlag : Outcome → Bool
  | .committedWith _ => true
  | _ => false

/-- Is the outcome an abort with the write-canceled condition? -/
def Outcome.isWriteCanceled : Outcome → Bool
  | .aborted .writeCanceled _ => true
  | _ => false

/-- The snapshot delivered with the outcome (failures deliver no snapshot). -/
def Outcome.finalSnapshot : Outcome → NodeVal
  | .committedWith v => v
  | .aborted _ v => v
  | .failed _ => none

/-- The caller's update function; `none` models returning `undefined`. -/
abbrev UpdateFn := NodeVal → Option NodeVal

/-- Modelled from the spec: `TransactionEntry` (section 3). -/
structure TEntry where
  path : Path
  updateFn : UpdateFn
  order : Nat
  status : TStatus
  applyLocally : Bool
  currentInputSnapshot : NodeVal
  currentOutputValue : Option NodeVal
  currentWriteId : Option Nat
  outcome : Option Outcome

/-- Modelled from the spec: `PendingWrite` (section 3). -/
structure PendingWrite where
  path : Path
  value : NodeVal
  writeId : Nat
  visible : Bool
deriving DecidableEq, Repr

/-- A conditional write submitted to the server, logged with the order of the
transaction entry that submitted it (spec section 4.3 step 2). -/
structure SentWrite where
  order : Nat
  path : Path
  value : NodeVal
  precondition : NodeVal
deriving DecidableEq, Repr

/-- Modelled from the spec: the sync-session state owned by the engine
(sections 4.1 and 4.2): entries keyed by their monotonic order, pending writes
keyed by their monotonic writeId, the last-known server value, and the log of
conditional writes submitted to the server. -/
structure EngineState where
  entries : Nat → Option TEntry
  nextOrder : Nat
  pendingWrites : Nat → Option PendingWrite
  nextWriteId : Nat
  serverValue : Path → NodeVal
  submittedWrites : List SentWrite

/-- Is the first path an ancestor-or-equal of the second? -/
def pathContains : Path → Path → Bool
  | [], _ => true
  | _ :: _, [] => false
  | a :: as, b :: bs => a == b && pathContains as bs

/-- Path overlap: one path is an ancestor-or-equal of the other. -/
def pathsOverlap (a b : Path) : Bool :=
  pathContains a b || pathContains b a

/-- Modelled from the spec: `overlayedValue` (section 4.1), restricted to the
per-path value model used here: the visible pending write at `p` with the
greatest writeId overlays the last-known server value (the tree-structured
ancestor/descendant overlay is not exercised by the checked claims). -/
def overlayCore (pw : Nat → Option PendingWrite) (nextWriteId : Nat)
    (sv : Path → NodeVal) (p : Path) : NodeVal :=
  match (List.range nextWriteId).reverse.find? (fun w =>
      match pw w with
      | some x => x.visible && x.path == p
      | none => false) with
  | some w =>
    match pw w with
    | some x => x.value
    | none => sv p
  | none => sv p

/-- The locally visible value at `p` in a given engine state. -/
def overlayedValue (s : EngineState) (p : Path) : NodeVal :=
  overlayCore s.pendingWrites s.nextWriteId s.serverValue p

/-- Modelled from the spec: `removeWrite` (section 4.1); removal is
idempotent (double removal is a no-op). -/
def removeWrite (pw : Nat → Option PendingWrite) (w : Option Nat) :
    Nat → Option PendingWrite :=
  match w with
  | none => pw
  | some wid => fun i => if i = wid then none else pw i

/-- Is some entry for `p` currently SENT? (spec section 4.2) -/
def someSentFor (s : EngineState) (p : Path) : Bool :=
  (List.range s.nextOrder).any fun o =>
    match s.entries o with
    | some e => e.path == p && e.status == .SENT
    | none => false

/-- Modelled from the spec: `nextSendable` (section 4.2): the earliest RUN
entry for `p`, provided no entry for `p` is currently SENT. -/
def nextSendable (s : EngineState) (p : Path) : Option Nat :=
  if someSentFor s p then none
  else
    (List.range s.nextOrder).find? fun o =>
      match s.entries o with
      | some e => e.path == p && e.status == .RUN
      | none => false

/-- The SENT entry for `p`, if any. -/
def findSent (s : EngineState) (p : Path) : Option Nat :=
  (List.range s.nextOrder).find? fun o =>
    match s.entries o with
    | some e => e.path == p && e.status == .SENT
    | none => false

/-- The server's verdict on a submitted conditional write (spec section 4.3
step 3). -/
inductive Verdict where
  | accept
  | rejectConflict (authoritative : NodeVal)
  | rejectHard (err : String)

/-- External stimuli driving the engine, serialized by the event loop (spec
section 5): enqueueing a transaction, the runner picking up the head sendable
entry for a path, a server verdict for the in-flight write on a path, and a
non-transactional overwrite landing from the sync engine. -/
inductive Event where
  | enqueue (p : Path) (f : UpdateFn) (applyLocally : Bool)
  | send (p : Path)
  | verdict (p : Path) (v : Verdict)
  | overwrite (p : Path) (v : NodeVal)

/-- Modelled from the spec: `enqueue` (section 4.2) inserts a fresh RUN entry
with the next monotonic order. -/
def applyEnqueue (s : EngineState) (p : Path) (f : UpdateFn)
    (applyLocally : Bool) : EngineState :=
  { s with
    entries := fun o =>
      if o = s.nextOrder then
        some { path := p, updateFn := f, order := s.nextOrder, status := .RUN,
               applyLocally := applyLocally, currentInputSnapshot := none,
               currentOutputValue := none, currentWriteId := none,
               outcome := none }
      else s.entries o
    nextOrder := s.nextOrder + 1 }

/-- Modelled from the spec: the RUN-to-SENT step of the runner (section 4.3
step 2).  The head sendable entry reads the overlayed value and invokes the
update function.  A defined result registers a PendingWrite (when
`applyLocally`) and submits a conditional write whose precondition is the
server value that produced the input snapshot.  An undefined result completes
the entry as aborted with the input snapshot as final snapshot, removes any
pending write, and submits nothing. -/
def applySend (s : EngineState) (p : Path) : EngineState :=
  match nextSendable s p with
  | none => s
  | some o =>
    match s.entries o with
    | none => s
    | some e =>
      let input := overlayedValue s p
      match e.updateFn input with
      | some v =>
        let wid := s.nextWriteId
        { s with
          entries := fun o' =>
            if o' = o then
              some { e with
                     status := .SENT
                     currentInputSnapshot := input
                     currentOutputValue := some v
                     currentWriteId := if e.applyLocally then some wid else none }
            else s.entries o'
          pendingWrites :=
            if e.applyLocally then
              fun w => if w = wid then some ⟨p, v, wid, true⟩ else s.pendingWrites w
            else s.pendingWrites
          nextWriteId := s.nextWriteId + 1
          submittedWrites := s.submittedWrites ++ [⟨o, p, v, s.serverValue p⟩] }
      | none =>
        { s with
          entries := fun o' =>
            if o' = o then
              some { e with
                     status := .COMPLETED
                     currentInputSnapshot := input
                     currentWriteId := none
                     outcome := some (.aborted .returnedUndefined input) }
            else s.entries o'
          pendingWrites := removeWrite s.pendingWrites e.currentWriteId }

/-- Modelled from the spec: the SENT-state transitions (section 4.3 step 3).
Accept completes the entry as committed with the accepted value, which becomes
server-confirmed state; a conflict rejection returns the entry to RUN with the
server-supplied authoritative value as the new input snapshot; a hard error
completes the entry as a failure.  In every case the pending write is
removed. -/
def applyVerdict (s : EngineState) (p : Path) (v : Verdict) : EngineState :=
  match findSent s p with
  | none => s
  | some o =>
    match s.entries o with
    | none => s
    | some e =>
      let pw' := removeWrite s.pendingWrites e.currentWriteId
      match v with
      | .accept =>
        let accepted := e.currentOutputValue.getD none
        { s with
          entries := fun o' =>
            if o' = o then
              some { e with
                     status := .COMPLETED
                     currentWriteId := none
                     outcome := some (.committedWith accepted) }
            else s.entries o'
          pendingWrites := pw'
          serverValue := fun q => if q = p then accepted else s.serverValue q }
      | .rejectConflict auth =>
        { s with
          entries := fun o' =>
            if o' = o then
              some { e with
                     status := .RUN
                     currentWriteId := none
                     currentInputSnapshot := auth }
            else s.entries o'
          pendingWrites := pw'
          serverValue := fun q => if q = p then auth else s.serverValue q }
      | .rejectHard err =>
        { s with
          entries := fun o' =>
            if o' = o then
              some { e with
                     status := .COMPLETED
                     currentWriteId := none
                     outcome := some (.failed err) }
            else s.entries o'
          pendingWrites := pw' }

/-- Modelled from the spec: `abortAllDescendants` (sections 4.2 and 4.3
step 3): a non-transactional overwrite updates the server value and completes
every queued non-COMPLETED entry on an overlapping path as aborted with a
write-canceled condition, removing the pending writes on the overwritten
subtree; the abort snapshot is the value at abort time at the entry's path. -/
def applyOverwrite (s : EngineState) (q : Path) (v : NodeVal) : EngineState :=
  let sv' := fun r => if r = q then v else s.serverValue r
  let pw' := fun w =>
    match s.pendingWrites w with
    | some x => if pathsOverlap x.path q then none else some x
    | none => none
  { s with
    entries := fun o =>
      match s.entries o with
      | some e =>
        if pathsOverlap e.path q && e.status != .COMPLETED then
          some { e with
                 status := .COMPLETED
                 currentWriteId := none
                 outcome := some (.aborted .writeCanceled
                   (overlayCore pw' s.nextWriteId sv' e.path)) }
        else some e
      | none => none
    pendingWrites := pw'
    serverValue := sv' }

/-- One engine step. -/
def applyEvent (s : EngineState) : Event → EngineState
  | .enqueue p f al => applyEnqueue s p f al
  | .send p => applySend s p
  | .verdict p v => applyVerdict s p v
  | .overwrite p v => applyOverwrite s p v

/-- Run a list of events from a state. -/
def applyEvents (s : EngineState) (evs : List Event) : EngineState :=
  evs.foldl applyEvent s

/-- The initial engine state: no entries, no pending writes, a given
last-known server value, nothing submitted. -/
def initState (sv : Path → NodeVal) : EngineState :=
  { entries := fun _ => none, nextOrder := 0,
    pendingWrites := fun _ => none, nextWriteId := 0,
    serverValue := sv, submittedWrites := [] }

/-- The number of queued entries for `p` currently in SENT status. -/
def sentCountAt (s : EngineState) (p : Path) : Nat :=
  ((List.range s.nextOrder).filter fun o =>
    match s.entries o with
    | some e => e.path == p && e.status == .SENT
    | none => false).length

/-- Every queued entry is RUN, SENT or COMPLETED: blocked entries of a path
stay RUN, and `SENT_NEEDS_ABORT` is never assigned. -/
def queueStatusesOk (s : EngineState) : Bool :=
  (List.range s.nextOrder).all fun o =>
    match s.entries o with
    | some e => e.status == .RUN || e.status == .SENT || e.status == .COMPLETED
    | none => true

/-- An execution of the engine: the state reached from the initial state
after a list of external events. -/
def runEngine (sv : Path → NodeVal) (evs : List Event) : EngineState :=
  applyEvents (initState sv) evs

/-- The structural invariant of the engine state used to establish the queue
properties: orders at or above `nextOrder` are unallocated, every entry is in
RUN, SENT or COMPLETED, and the SENT entry for any path is unique. -/
def EngineInv (s : EngineState) : Prop :=
  (∀ o, s.nextOrder ≤ o → s.entries o = none) ∧
  (∀ o e, s.entries o = some e →
    e.status = .RUN ∨ e.status = .SENT ∨ e.status = .COMPLETED) ∧
  (∀ i j ei ej, s.entries i = some ei → s.entries j = some ej →
    ei.status = .SENT → ej.status = .SENT → ei.path = ej.path → i = j)

end FirebaseDB

namespace FirebaseDB

theorem settled_foldl_frozen (path : Path) (s : Settlement)
    (cs : List (Option Error × Bool × NodeVal)) :
    cs.foldl (fun (d : Deferred) c => d.settle (promiseComplete path c.1 c.2.1 c.2.2))
      (⟨some s⟩ : Deferred) = (⟨some s⟩ : Deferred) := by
  induction cs with
  | nil => rfl
  | cons c cs ih => exact ih

/-- C2: for every call to `runTransaction` that passes synchronous validation,
the returned promise is settled at most once: the deferred cell ends up holding
exactly the settlement of the first completion-callback invocation (later
invocations are no-ops), and each single invocation of `promiseComplete`
performs exactly one of reject (iff the error is non-null) or resolve. -/
theorem runTransaction_single_resolution (path : Path)
    (calls : List (Option Error × Bool × NodeVal)) :
    (settleCalls path calls).cell = calls.head?.map (callSettlement path) ∧
    ∀ c : Option Error × Bool × NodeVal,
      (callSettlement path c).isRejected = c.1.isSome := by
  constructor
  · cases calls with
    | nil => rfl
    | cons c cs =>
      show (cs.foldl _ (Deferred.settle ⟨none⟩ (promiseComplete path c.1 c.2.1 c.2.2))).cell = _
      rw [show Deferred.settle ⟨none⟩ (promiseComplete path c.1 c.2.1 c.2.2) =
        ⟨some (promiseComplete path c.1 c.2.1 c.2.2)⟩ from rfl]
      rw [settled_foldl_frozen]
      rfl
  · intro c
    rcases c with ⟨err, committed, node⟩
    cases err <;> rfl

/-- C5: whenever the transaction completes with a non-null error, the promise
is rejected with exactly that error and no `TransactionResult` is constructed
(the settlement is a rejection, not a resolution). -/
theorem promiseComplete_error_rejects (p : Path) (e : Error) (committed : Bool)
    (node : NodeVal) :
    promiseComplete p (some e) committed node = .rejected e ∧
    (promiseComplete p (some e) committed node).isRejected = true :=
  ⟨rfl, rfl⟩

/-- C6: whenever the transaction completes aborted (null error, not
committed), the promise resolves — it does not reject — with a
`TransactionResult` whose committed field is false and whose snapshot is built
from the node at abort time at the transaction's path. -/
theorem promiseComplete_abort_resolves (p : Path) (node : NodeVal) :
    promiseComplete p none false node =
      .resolved ⟨false, ⟨node, p⟩⟩ ∧
    (promiseComplete p none false node).isRejected = false :=
  ⟨rfl, rfl⟩

/-- C3: for every ref whose target path is not writable or whose final key is
a reserved meta-key, `runTransaction` fails synchronously and the transaction
is never queued (no deferred is created and `repoStartTransaction` is not
invoked). -/
theorem runTransaction_invalid_not_queued (writable : Path → Bool) (p : Path)
    (opts : Option TransactionOptions)
    (h : writable p = false ∨ refKey p = some ".length" ∨ refKey p = some ".keys") :
    startedOk (runTransaction writable p opts) = false := by
  unfold runTransaction validateWritablePath
  cases hw : writable p with
  | false => rfl
  | true =>
    rcases h with h | h | h
    · exact absurd hw (by simp [h])
    · simp [h, startedOk]
    · simp [h, startedOk]

/-- C3 witness. -/
theorem runTransaction_invalid_not_queued_witness :
    startedOk (runTransaction (fun _ => false) ["a"] none) = false :=
  runTransaction_invalid_not_queued (fun _ => false) ["a"] none (Or.inl rfl)

/-- Helper: a successfully started transaction carries the effective
`applyLocally` flag `options?.applyLocally ?? true`. -/
theorem runTransaction_ok_applyLocally (writable : Path → Bool) (p : Path)
    (opts : Option TransactionOptions) (st : StartedTransaction)
    (h : runTransaction writable p opts = .ok st) :
    st.applyLocally = (opts.bind TransactionOptions.applyLocally).getD true := by
  unfold runTransaction validateWritablePath at h
  cases hw : writable p <;> rw [hw] at h <;> simp at h
  split at h
  · exact absurd h (by simp)
  · rw [Except.ok.injEq] at h
    rw [← h]

/-- C9: when options is omitted or `applyLocally` is undefined, the
transaction is started with `applyLocally = true`; an explicit value is passed
through unchanged. -/
theorem runTransaction_applyLocally_default (writable : Path → Bool) (p : Path)
    (st : StartedTransaction) :
    (runTransaction writable p none = .ok st → st.applyLocally = true) ∧
    (runTransaction writable p (some ⟨none⟩) = .ok st → st.applyLocally = true) ∧
    (∀ b : Bool, runTransaction writable p (some ⟨some b⟩) = .ok st →
      st.applyLocally = b) :=
  ⟨fun h => runTransaction_ok_applyLocally writable p none st h,
   fun h => runTransaction_ok_applyLocally writable p (some ⟨none⟩) st h,
   fun _ h => runTransaction_ok_applyLocally writable p (some ⟨some _⟩) st h⟩

/-- C9 witness. -/
theorem runTransaction_applyLocally_default_witness :
    (⟨["a"], true⟩ : StartedTransaction).applyLocally = true :=
  (runTransaction_applyLocally_default (fun _ => true) ["a"] ⟨["a"], true⟩).1 rfl

/-- C10: when the target ref's key is `.length` or `.keys` (and the path
passes the writability validation, which runs first), `runTransaction` throws
the plain string `Reference.transaction failed: <key> is a read-only object.`
and not an `Error` object. -/
theorem runTransaction_reserved_key_throws_string (writable : Path → Bool)
    (p : Path) (opts : Option TransactionOptions) (k : String)
    (hw : writable p = true) (hk : refKey p = some k)
    (hres : k = ".length" ∨ k = ".keys") :
    runTransaction writable p opts = .error (.strVal (readOnlyMessage k)) ∧
    threwErrorObject (runTransaction writable p opts) = false := by
  have hcheck : (refKey p == some ".length" || refKey p == some ".keys") = true := by
    rcases hres with h | h <;> subst h <;> simp [hk]
  have : runTransaction writable p opts = .error (.strVal (readOnlyMessage k)) := by
    unfold runTransaction validateWritablePath
    rw [hw]
    simp only [if_true]
    rw [hcheck]
    simp [hk]
  exact ⟨this, by rw [this]; rfl⟩

/-- C10 witness. -/
theorem runTransaction_reserved_key_throws_string_witness :
    runTransaction (fun _ => true) ["a", ".length"] none =
      .error (.strVal (readOnlyMessage ".length")) ∧
    threwErrorObject (runTransaction (fun _ => true) ["a", ".length"] none) = false :=
  runTransaction_reserved_key_throws_string (fun _ => true) ["a", ".length"]
    none ".length" rfl rfl (Or.inl rfl)

/-- C4 counterexample: a ref whose strict ancestor segment is the reserved
meta-key `.length` but whose own key is not reserved does not fail: the
transaction is queued. -/
theorem runTransaction_reserved_ancestor_counterexample :
    runTransaction (fun _ => true) [".length", "x"] none =
      .ok ⟨[".length", "x"], true⟩ :=
  rfl

/-- C4 (amended): the reserved-meta-key check inspects only the ref's own
(final) key; a path with a reserved meta-key in a strict ancestor segment but
a non-reserved final key is queued normally, provided it passes the
writability validation. -/
theorem runTransaction_only_final_key_checked (writable : Path → Bool)
    (p : Path) (opts : Option TransactionOptions)
    (hw : writable p = true)
    (_hanc : ∃ seg ∈ p.dropLast, seg = ".length" ∨ seg = ".keys")
    (hk : ¬(refKey p = some ".length" ∨ refKey p = some ".keys")) :
    startedOk (runTransaction writable p opts) = true := by
  unfold runTransaction validateWritablePath
  rw [hw]
  simp only [if_true]
  have h1 : (refKey p == some ".length") = false := by
    rw [beq_eq_false_iff_ne]
    exact fun h => hk (Or.inl h)
  have h2 : (refKey p == some ".keys") = false := by
    rw [beq_eq_false_iff_ne]
    exact fun h => hk (Or.inr h)
  rw [h1, h2]
  rfl

/-- C4 (amended) witness. -/
theorem runTransaction_only_final_key_checked_witness :
    startedOk (runTransaction (fun _ => true) [".length", "x"] none) = true :=
  runTransaction_only_final_key_checked (fun _ => true) [".length", "x"] none
    rfl ⟨".length", by simp, Or.inl rfl⟩ (by simp [refKey])

end FirebaseDB

namespace FirebaseDB

theorem someSentFor_eq_false (s : EngineState) (p : Path)
    (h : someSentFor s p = false) (o : Nat) (e : TEntry)
    (he : s.entries o = some e) (hp : e.path = p) (ho : o < s.nextOrder) :
    e.status ≠ .SENT := by
  intro hst
  unfold someSentFor at h
  rw [List.any_eq_false] at h
  have hx := h o (List.mem_range.mpr ho)
  rw [he] at hx
  simp [hp, hst] at hx

theorem nextSendable_spec (s : EngineState) (p : Path) (o : Nat)
    (h : nextSendable s p = some o) :
    someSentFor s p = false ∧ o < s.nextOrder ∧
    ∃ e, s.entries o = some e ∧ e.path = p ∧ e.status = .RUN := by
  unfold nextSendable at h
  split at h
  · exact absurd h (by simp)
  · next hs =>
    refine ⟨by simpa using hs, ?_, ?_⟩
    · exact List.mem_range.mp (List.mem_of_find?_eq_some h)
    · have hpred := List.find?_some h
      cases he : s.entries o with
      | none => rw [he] at hpred; simp at hpred
      | some e =>
        rw [he] at hpred
        simp only [Bool.and_eq_true, beq_iff_eq] at hpred
        exact ⟨e, rfl, hpred.1, hpred.2⟩

theorem findSent_spec (s : EngineState) (p : Path) (o : Nat)
    (h : findSent s p = some o) :
    o < s.nextOrder ∧
    ∃ e, s.entries o = some e ∧ e.path = p ∧ e.status = .SENT := by
  unfold findSent at h
  refine ⟨List.mem_range.mp (List.mem_of_find?_eq_some h), ?_⟩
  have hpred := List.find?_some h
  cases he : s.entries o with
  | none => rw [he] at hpred; simp at hpred
  | some e =>
    rw [he] at hpred
    simp only [Bool.and_eq_true, beq_iff_eq] at hpred
    exact ⟨e, rfl, hpred.1, hpred.2⟩

theorem inv_initState (sv : Path → NodeVal) : EngineInv (initState sv) := by
  refine ⟨fun o _ => rfl, fun o e he => ?_, fun i j ei ej hi _ _ _ _ => ?_⟩
  · exact absurd he (by simp [initState])
  · exact absurd hi (by simp [initState])

theorem inv_enqueue (s : EngineState) (p : Path) (f : UpdateFn) (al : Bool)
    (h : EngineInv s) : EngineInv (applyEnqueue s p f al) := by
  obtain ⟨h1, h2, h3⟩ := h
  unfold applyEnqueue EngineInv
  refine ⟨?_, ?_, ?_⟩
  · intro o ho
    simp only at ho ⊢
    rw [if_neg (by omega : ¬ o = s.nextOrder)]
    exact h1 o (by omega)
  · intro o e he
    simp only at he
    by_cases ho : o = s.nextOrder
    · rw [if_pos ho] at he
      cases he
      exact Or.inl rfl
    · rw [if_neg ho] at he
      exact h2 o e he
  · intro i j ei ej hi hj hsi hsj hpp
    simp only at hi hj
    by_cases hio : i = s.nextOrder
    · rw [if_pos hio] at hi
      cases hi
      simp at hsi
    · rw [if_neg hio] at hi
      by_cases hjo : j = s.nextOrder
      · rw [if_pos hjo] at hj
        cases hj
        simp at hsj
      · rw [if_neg hjo] at hj
        exact h3 i j ei ej hi hj hsi hsj hpp

end FirebaseDB

namespace FirebaseDB

theorem entry_lt_nextOrder (s : EngineState) (h1 : ∀ o, s.nextOrder ≤ o → s.entries o = none)
    (m : Nat) (em : TEntry) (hm : s.entries m = some em) : m < s.nextOrder := by
  by_contra hc
  rw [h1 m (by omega)] at hm
  exact Option.noConfusion hm

theorem inv_send (s : EngineState) (p : Path) (h : EngineInv s) :
    EngineInv (applySend s p) := by
  obtain ⟨h1, h2, h3⟩ := h
  unfold applySend
  cases hns : nextSendable s p with
  | none => exact ⟨h1, h2, h3⟩
  | some o =>
    obtain ⟨hnosent, holt, e0, he0, hpath, hrun⟩ := nextSendable_spec s p o hns
    dsimp only
    rw [he0]
    dsimp only
    cases hu : e0.updateFn (overlayedValue s p) with
    | some v =>
      dsimp only
      unfold EngineInv
      refine ⟨?_, ?_, ?_⟩
      · intro i hi
        simp only at hi ⊢
        rw [if_neg (by omega : ¬ i = o)]
        exact h1 i hi
      · intro i e he
        simp only at he
        by_cases hio : i = o
        · rw [if_pos hio] at he
          cases he
          exact Or.inr (Or.inl rfl)
        · rw [if_neg hio] at he
          exact h2 i e he
      · intro i j ei ej hi hj hsi hsj hpp
        simp only at hi hj
        by_cases hio : i = o
        · by_cases hjo : j = o
          · rw [hio, hjo]
          · rw [if_pos hio] at hi
            rw [if_neg hjo] at hj
            cases hi
            have hejp : ej.path = p := by
              rw [← hpp]
              exact hpath
            exact absurd hsj (someSentFor_eq_false s p hnosent j ej hj hejp
              (entry_lt_nextOrder s h1 j ej hj))
        · rw [if_neg hio] at hi
          by_cases hjo : j = o
          · rw [if_pos hjo] at hj
            cases hj
            have heip : ei.path = p := by
              rw [hpp]
              exact hpath
            exact absurd hsi (someSentFor_eq_false s p hnosent i ei hi heip
              (entry_lt_nextOrder s h1 i ei hi))
          · rw [if_neg hjo] at hj
            exact h3 i j ei ej hi hj hsi hsj hpp
    | none =>
      dsimp only
      unfold EngineInv
      refine ⟨?_, ?_, ?_⟩
      · intro i hi
        simp only at hi ⊢
        rw [if_neg (by omega : ¬ i = o)]
        exact h1 i hi
      · intro i e he
        simp only at he
        by_cases hio : i = o
        · rw [if_pos hio] at he
          cases he
          exact Or.inr (Or.inr rfl)
        · rw [if_neg hio] at he
          exact h2 i e he
      · intro i j ei ej hi hj hsi hsj hpp
        simp only at hi hj
        by_cases hio : i = o
        · rw [if_pos hio] at hi
          cases hi
          simp at hsi
        · rw [if_neg hio] at hi
          by_cases hjo : j = o
          · rw [if_pos hjo] at hj
            cases hj
            simp at hsj
          · rw [if_neg hjo] at hj
            exact h3 i j ei ej hi hj hsi hsj hpp

end FirebaseDB

namespace FirebaseDB

theorem inv_verdict (s : EngineState) (p : Path) (v : Verdict) (h : EngineInv s) :
    EngineInv (applyVerdict s p v) := by
  obtain ⟨h1, h2, h3⟩ := h
  unfold applyVerdict
  cases hfs : findSent s p with
  | none => exact ⟨h1, h2, h3⟩
  | some o =>
    obtain ⟨holt, e0, he0, hpath, hsent⟩ := findSent_spec s p o hfs
    dsimp only
    rw [he0]
    dsimp only
    cases v <;>
    · dsimp only
      unfold EngineInv
      refine ⟨?_, ?_, ?_⟩
      · intro i hi
        simp only at hi ⊢
        rw [if_neg (by omega : ¬ i = o)]
        exact h1 i hi
      · intro i e he
        simp only at he
        by_cases hio : i = o
        · rw [if_pos hio] at he
          cases he
          simp
        · rw [if_neg hio] at he
          exact h2 i e he
      · intro i j ei ej hi hj hsi hsj hpp
        simp only at hi hj
        by_cases hio : i = o
        · rw [if_pos hio] at hi
          cases hi
          simp at hsi
        · rw [if_neg hio] at hi
          by_cases hjo : j = o
          · rw [if_pos hjo] at hj
            cases hj
            simp at hsj
          · rw [if_neg hjo] at hj
            exact h3 i j ei ej hi hj hsi hsj hpp

theorem inv_overwrite (s : EngineState) (q : Path) (v : NodeVal)
    (h : EngineInv s) : EngineInv (applyOverwrite s q v) := by
  obtain ⟨h1, h2, h3⟩ := h
  unfold applyOverwrite EngineInv
  refine ⟨?_, ?_, ?_⟩
  · intro o ho
    simp only at ho ⊢
    rw [h1 o ho]
  · intro o e he
    simp only at he
    cases he0 : s.entries o with
    | none =>
      rw [he0] at he
      exact absurd he (by simp)
    | some e0 =>
      rw [he0] at he
      dsimp only at he
      by_cases hc : (pathsOverlap e0.path q && e0.status != .COMPLETED) = true
      · rw [if_pos hc] at he
        cases he
        simp
      · rw [if_neg hc] at he
        cases he
        exact h2 _ _ he0
  · intro i j ei ej hi hj hsi hsj hpp
    simp only at hi hj
    have restore : ∀ m (em : TEntry),
        (match s.entries m with
          | some e =>
            if pathsOverlap e.path q && e.status != .COMPLETED then
              some { e with
                     status := .COMPLETED
                     currentWriteId := none
                     outcome := some (.aborted .writeCanceled
                       (overlayCore
                         (fun w =>
                           match s.pendingWrites w with
                           | some x => if pathsOverlap x.path q then none else some x
                           | none => none)
                         s.nextWriteId
                         (fun r => if r = q then v else s.serverValue r) e.path)) }
            else some e
          | none => none) = some em →
        em.status = .SENT → s.entries m = some em := by
      intro m em hm hsentm
      cases hm0 : s.entries m with
      | none =>
        rw [hm0] at hm
        exact absurd hm (by simp)
      | some em0 =>
        rw [hm0] at hm
        dsimp only at hm
        by_cases hc : (pathsOverlap em0.path q && em0.status != .COMPLETED) = true
        · rw [if_pos hc] at hm
          cases hm
          simp at hsentm
        · rw [if_neg hc] at hm
          cases hm
          rfl
    exact h3 i j ei ej (restore i ei hi hsi) (restore j ej hj hsj) hsi hsj hpp

theorem inv_applyEvent (s : EngineState) (ev : Event) (h : EngineInv s) :
    EngineInv (applyEvent s ev) := by
  cases ev with
  | enqueue p f al => exact inv_enqueue s p f al h
  | send p => exact inv_send s p h
  | verdict p v => exact inv_verdict s p v h
  | overwrite p v => exact inv_overwrite s p v h

theorem inv_applyEvents (s : EngineState) (evs : List Event) (h : EngineInv s) :
    EngineInv (applyEvents s evs) := by
  induction evs generalizing s with
  | nil => exact h
  | cons ev evs ih => exact ih (applyEvent s ev) (inv_applyEvent s ev h)

end FirebaseDB

namespace FirebaseDB

theorem filter_length_le_one (l : List Nat) (pred : Nat → Bool)
    (hnd : l.Nodup)
    (hu : ∀ a ∈ l, ∀ b ∈ l, pred a = true → pred b = true → a = b) :
    (l.filter pred).length ≤ 1 := by
  induction l with
  | nil => simp
  | cons x xs ih =>
    rw [List.nodup_cons] at hnd
    by_cases hx : pred x = true
    · rw [List.filter_cons_of_pos hx]
      have hnil : xs.filter pred = [] := by
        rw [List.filter_eq_nil_iff]
        intro a ha hpa
        have hax : a = x :=
          hu a (List.mem_cons_of_mem x ha) x (List.mem_cons_self x xs)
            (by simpa using hpa) hx
        subst hax
        exact absurd ha hnd.1
      simp [hnil]
    · rw [List.filter_cons_of_neg (by simpa using hx)]
      exact ih hnd.2 fun a ha b hb hpa hpb =>
        hu a (List.mem_cons_of_mem x ha) b (List.mem_cons_of_mem x hb) hpa hpb

theorem sent_pred_spec (s : EngineState) (p : Path) (o : Nat)
    (h : (match s.entries o with
          | some e => e.path == p && e.status == TStatus.SENT
          | none => false) = true) :
    ∃ e, s.entries o = some e ∧ e.path = p ∧ e.status = .SENT := by
  cases he : s.entries o with
  | none =>
    rw [he] at h
    simp at h
  | some e =>
    rw [he] at h
    simp only [Bool.and_eq_true, beq_iff_eq] at h
    exact ⟨e, rfl, h.1, h.2⟩

theorem inv_sentCount (s : EngineState) (h : EngineInv s) (p : Path) :
    sentCountAt s p ≤ 1 := by
  obtain ⟨h1, h2, h3⟩ := h
  unfold sentCountAt
  apply filter_length_le_one
  · exact List.nodup_range s.nextOrder
  · intro a _ b _ hpa hpb
    obtain ⟨ea, hea, hpa1, hpa2⟩ := sent_pred_spec s p a hpa
    obtain ⟨eb, heb, hpb1, hpb2⟩ := sent_pred_spec s p b hpb
    exact h3 a b ea eb hea heb hpa2 hpb2 (hpa1.trans hpb1.symm)

theorem inv_statusesOk (s : EngineState) (h : EngineInv s) :
    queueStatusesOk s = true := by
  obtain ⟨h1, h2, h3⟩ := h
  unfold queueStatusesOk
  rw [List.all_eq_true]
  intro o _
  cases he : s.entries o with
  | none => rfl
  | some e => rcases h2 o e he with hst | hst | hst <;> simp [hst]

/-- C1: for every path `p`, at every point of any execution of the engine, at
most one queued `TransactionEntry` for `p` is in SENT status, and every queued
entry is RUN, SENT or COMPLETED — so all entries for `p` other than the single
in-flight one stay RUN until they are themselves sent or completed. -/
theorem txQueue_at_most_one_sent (sv : Path → NodeVal) (evs : List Event)
    (p : Path) :
    sentCountAt (applyEvents (initState sv) evs) p ≤ 1 ∧
    queueStatusesOk (applyEvents (initState sv) evs) = true := by
  have hinv := inv_applyEvents (initState sv) evs (inv_initState sv)
  exact ⟨inv_sentCount _ hinv p, inv_statusesOk _ hinv⟩

end FirebaseDB

namespace FirebaseDB

theorem completed_frozen_event (s : EngineState) (ev : Event) (o : Nat)
    (e : TEntry) (hinv : EngineInv s) (he : s.entries o = some e)
    (hc : e.status = .COMPLETED) :
    (applyEvent s ev).entries o = some e := by
  obtain ⟨h1, h2, h3⟩ := hinv
  have ho : o < s.nextOrder := entry_lt_nextOrder s h1 o e he
  cases ev with
  | enqueue p f al =>
    show (applyEnqueue s p f al).entries o = some e
    unfold applyEnqueue
    simp only
    rw [if_neg (by omega : ¬ o = s.nextOrder)]
    exact he
  | send p =>
    show (applySend s p).entries o = some e
    unfold applySend
    cases hns : nextSendable s p with
    | none => exact he
    | some o' =>
      obtain ⟨hnosent, holt, e0, he0, hpath, hrun⟩ := nextSendable_spec s p o' hns
      dsimp only
      rw [he0]
      dsimp only
      have hoo : ¬ o = o' := by
        intro hx
        subst hx
        rw [he] at he0
        have : e = e0 := Option.some_inj.mp he0
        rw [← this] at hrun
        rw [hc] at hrun
        exact TStatus.noConfusion hrun
      cases hu : e0.updateFn (overlayedValue s p) with
      | some v =>
        dsimp only
        rw [if_neg hoo]
        exact he
      | none =>
        dsimp only
        rw [if_neg hoo]
        exact he
  | verdict p v =>
    show (applyVerdict s p v).entries o = some e
    unfold applyVerdict
    cases hfs : findSent s p with
    | none => exact he
    | some o' =>
      obtain ⟨holt, e0, he0, hpath, hsent⟩ := findSent_spec s p o' hfs
      dsimp only
      rw [he0]
      dsimp only
      have hoo : ¬ o = o' := by
        intro hx
        subst hx
        rw [he] at he0
        have : e = e0 := Option.some_inj.mp he0
        rw [← this] at hsent
        rw [hc] at hsent
        exact TStatus.noConfusion hsent
      cases v <;>
      · dsimp only
        rw [if_neg hoo]
        exact he
  | overwrite q v =>
    show (applyOverwrite s q v).entries o = some e
    unfold applyOverwrite
    simp only
    rw [he]
    dsimp only
    simp [hc]

theorem completed_no_new_submission (s : EngineState) (ev : Event) (o : Nat)
    (e : TEntry) (hinv : EngineInv s) (he : s.entries o = some e)
    (hc : e.status = .COMPLETED)
    (hsub : ∀ w ∈ s.submittedWrites, w.order ≠ o) :
    ∀ w ∈ (applyEvent s ev).submittedWrites, w.order ≠ o := by
  obtain ⟨h1, h2, h3⟩ := hinv
  cases ev with
  | enqueue p f al => exact hsub
  | send p =>
    show ∀ w ∈ (applySend s p).submittedWrites, w.order ≠ o
    unfold applySend
    cases hns : nextSendable s p with
    | none => exact hsub
    | some o' =>
      obtain ⟨hnosent, holt, e0, he0, hpath, hrun⟩ := nextSendable_spec s p o' hns
      dsimp only
      rw [he0]
      dsimp only
      have hoo : o' ≠ o := by
        intro hx
        subst hx
        rw [he] at he0
        have : e = e0 := Option.some_inj.mp he0
        rw [← this] at hrun
        rw [hc] at hrun
        exact TStatus.noConfusion hrun
      cases hu : e0.updateFn (overlayedValue s p) with
      | some v =>
        dsimp only
        intro w hw
        rw [List.mem_append] at hw
        rcases hw with hw | hw
        · exact hsub w hw
        · rw [List.mem_singleton] at hw
          subst hw
          exact hoo
      | none => exact hsub
  | verdict p v =>
    show ∀ w ∈ (applyVerdict s p v).submittedWrites, w.order ≠ o
    unfold applyVerdict
    cases hfs : findSent s p with
    | none => exact hsub
    | some o' =>
      dsimp only
      cases he0 : s.entries o' with
      | none => exact hsub
      | some e0 =>
        dsimp only
        cases v <;> exact hsub
  | overwrite q v => exact hsub

theorem completed_stable (s : EngineState) (evs : List Event) (o : Nat)
    (e : TEntry) (hinv : EngineInv s) (he : s.entries o = some e)
    (hc : e.status = .COMPLETED) :
    (applyEvents s evs).entries o = some e := by
  induction evs generalizing s with
  | nil => exact he
  | cons ev evs ih =>
    exact ih (applyEvent s ev) (inv_applyEvent s ev hinv)
      (completed_frozen_event s ev o e hinv he hc)

theorem completed_no_submissions (s : EngineState) (evs : List Event) (o : Nat)
    (e : TEntry) (hinv : EngineInv s) (he : s.entries o = some e)
    (hc : e.status = .COMPLETED)
    (hsub : ∀ w ∈ s.submittedWrites, w.order ≠ o) :
    ∀ w ∈ (applyEvents s evs).submittedWrites, w.order ≠ o := by
  induction evs generalizing s with
  | nil => exact hsub
  | cons ev evs ih =>
    exact ih (applyEvent s ev) (inv_applyEvent s ev hinv)
      (completed_frozen_event s ev o e hinv he hc)
      (completed_no_new_submission s ev o e hinv he hc hsub)

end FirebaseDB

namespace FirebaseDB

/-- C7: if the head sendable entry's update function returns undefined on an
invocation with no conditional write yet submitted for this entry (its first
invocation), then no conditional write is ever submitted to the server on its
behalf, the entry transitions directly from RUN to COMPLETED (and stays so),
its pending write (if any) is removed, and the delivered outcome is an abort
with committed = false whose final snapshot is the input snapshot of that
invocation. -/
theorem update_undefined_aborts_without_send (sv : Path → NodeVal)
    (pre post : List Event) (p : Path) (o : Nat) (e : TEntry)
    (hn : nextSendable (runEngine sv pre) p = some o)
    (he : (runEngine sv pre).entries o = some e)
    (hu : e.updateFn (overlayedValue (runEngine sv pre) p) = none)
    (hfirst : ∀ w ∈ (runEngine sv pre).submittedWrites, w.order ≠ o) :
    e.status = .RUN ∧
    (applyEvents (runEngine sv pre) (Event.send p :: post)).entries o =
      some { e with
             status := .COMPLETED
             currentInputSnapshot := overlayedValue (runEngine sv pre) p
             currentWriteId := none
             outcome := some (.aborted .returnedUndefined
               (overlayedValue (runEngine sv pre) p)) } ∧
    (∀ w ∈ (applyEvents (runEngine sv pre) (Event.send p :: post)).submittedWrites,
      w.order ≠ o) ∧
    ∀ wid, e.currentWriteId = some wid →
      (applySend (runEngine sv pre) p).pendingWrites wid = none := by
  have hinv : EngineInv (runEngine sv pre) :=
    inv_applyEvents (initState sv) pre (inv_initState sv)
  obtain ⟨hnosent, holt, e0, he0, hpath, hrun⟩ :=
    nextSendable_spec (runEngine sv pre) p o hn
  have hee : e0 = e := by
    rw [he] at he0
    exact (Option.some_inj.mp he0).symm
  subst hee
  have hstep : applySend (runEngine sv pre) p =
      { runEngine sv pre with
        entries := fun o' =>
          if o' = o then
            some { e0 with
                   status := .COMPLETED
                   currentInputSnapshot := overlayedValue (runEngine sv pre) p
                   currentWriteId := none
                   outcome := some (.aborted .returnedUndefined
                     (overlayedValue (runEngine sv pre) p)) }
          else (runEngine sv pre).entries o'
        pendingWrites :=
          removeWrite (runEngine sv pre).pendingWrites e0.currentWriteId } := by
    unfold applySend
    rw [hn]
    dsimp only
    rw [he]
    dsimp only
    rw [hu]
  have hent1 : (applySend (runEngine sv pre) p).entries o =
      some { e0 with
             status := .COMPLETED
             currentInputSnapshot := overlayedValue (runEngine sv pre) p
             currentWriteId := none
             outcome := some (.aborted .returnedUndefined
               (overlayedValue (runEngine sv pre) p)) } := by
    rw [hstep]
    simp
  have hsub1 : ∀ w ∈ (applySend (runEngine sv pre) p).submittedWrites,
      w.order ≠ o := by
    rw [hstep]
    exact hfirst
  have hinv1 : EngineInv (applySend (runEngine sv pre) p) :=
    inv_send (runEngine sv pre) p hinv
  refine ⟨hrun, ?_, ?_, ?_⟩
  · exact completed_stable (applySend (runEngine sv pre) p) post o _ hinv1 hent1 rfl
  · exact completed_no_submissions (applySend (runEngine sv pre) p) post o _
      hinv1 hent1 rfl hsub1
  · intro wid hwid
    rw [hstep]
    simp [removeWrite, hwid]

/-- C7 witness. -/
theorem update_undefined_aborts_without_send_witness :
    ({ path := ["x"], updateFn := fun _ => none, order := 0, status := .RUN,
       applyLocally := true, currentInputSnapshot := none,
       currentOutputValue := none, currentWriteId := none,
       outcome := none } : TEntry).status = .RUN :=
  (update_undefined_aborts_without_send (fun _ => none)
    [Event.enqueue ["x"] (fun _ => none) true] [] ["x"] 0
    { path := ["x"], updateFn := fun _ => none, order := 0, status := .RUN,
      applyLocally := true, currentInputSnapshot := none,
      currentOutputValue := none, currentWriteId := none, outcome := none }
    rfl rfl rfl (fun w hw => absurd hw (List.not_mem_nil w))).1

/-- C8: if an overwrite notification for an overlapping path arrives while a
transaction entry is in SENT state (before the server verdict), the entry
completes as aborted with the write-canceled condition and from then on never
completes as committed. -/
theorem overwrite_aborts_sent (sv : Path → NodeVal) (pre post : List Event)
    (q : Path) (v : NodeVal) (o : Nat) (e : TEntry)
    (he : (runEngine sv pre).entries o = some e)
    (hst : e.status = .SENT)
    (hov : pathsOverlap e.path q = true) :
    ∃ e', (applyEvents (runEngine sv pre)
        (Event.overwrite q v :: post)).entries o = some e' ∧
      e'.status = .COMPLETED ∧
      ∃ oc, e'.outcome = some oc ∧ oc.isWriteCanceled = true ∧
        oc.committedFlag = false := by
  have hinv : EngineInv (runEngine sv pre) :=
    inv_applyEvents (initState sv) pre (inv_initState sv)
  have hcond : (pathsOverlap e.path q && e.status != .COMPLETED) = true := by
    simp [hov, hst]
  have hent1 : (applyOverwrite (runEngine sv pre) q v).entries o =
      some { e with
             status := .COMPLETED
             currentWriteId := none
             outcome := some (.aborted .writeCanceled
               (overlayCore
                 (fun w =>
                   match (runEngine sv pre).pendingWrites w with
                   | some x => if pathsOverlap x.path q then none else some x
                   | none => none)
                 (runEngine sv pre).nextWriteId
                 (fun r => if r = q then v else (runEngine sv pre).serverValue r)
                 e.path)) } := by
    unfold applyOverwrite
    simp only
    rw [he]
    dsimp only
    rw [if_pos hcond]
  have hinv1 : EngineInv (applyOverwrite (runEngine sv pre) q v) :=
    inv_overwrite (runEngine sv pre) q v hinv
  exact ⟨_, completed_stable (applyOverwrite (runEngine sv pre) q v) post o _
      hinv1 hent1 rfl, rfl, _, rfl, rfl, rfl⟩

/-- C8 witness. -/
theorem overwrite_aborts_sent_witness :
    ∃ e', (applyEvents (runEngine (fun _ => none)
        [Event.enqueue ["x"] (fun _ => some (some 9)) true, Event.send ["x"]])
        (Event.overwrite ["x"] (some 42) :: [])).entries 0 = some e' ∧
      e'.status = .COMPLETED ∧
      ∃ oc, e'.outcome = some oc ∧ oc.isWriteCanceled = true ∧
        oc.committedFlag = false :=
  overwrite_aborts_sent (fun _ => none)
    [Event.enqueue ["x"] (fun _ => some (some 9)) true, Event.send ["x"]] []
    ["x"] (some 42) 0
    { path := ["x"], updateFn := fun _ => some (some 9), order := 0,
      status := .SENT, applyLocally := true, currentInputSnapshot := none,
      currentOutputValue := some (some 9), currentWriteId := some 0,
      outcome := none }
    rfl rfl rfl

end FirebaseDB
